import Mathlib

/-!
Verification of the documentation-search core of a Markdown section
parser/search server (DocumentParser in temp.py).

Strings are modelled as lists of characters.  Python string operations
used by the source (split("\n"), "\n".join, strip(), lower(), split(),
substring membership, str.count, slicing) are embedded as executable
functions on List Char below, and the parser and the two search
functions are translated line by line from the source.
-/

namespace DocSearch

/-- Characters of a Lean string literal, used to write concrete inputs. -/
def str (s : String) : List Char := s.data

/-- Python str.lower, per character (ASCII case folding). -/
def lower (s : List Char) : List Char := s.map Char.toLower

/-- Python str.strip(): drop leading and trailing whitespace. -/
def strip (s : List Char) : List Char :=
  ((s.dropWhile Char.isWhitespace).reverse.dropWhile Char.isWhitespace).reverse

/-- Python content.split("\n"): split on every newline; "" yields [""]. -/
def splitNl : List Char → List (List Char)
  | [] => [[]]
  | c :: t =>
    if c = '\n' then [] :: splitNl t
    else
      match splitNl t with
      | [] => [[c]]
      | h :: r => (c :: h) :: r

/-- Python "\n".join(lines). -/
def joinNl (ls : List (List Char)) : List Char := List.intercalate ['\n'] ls

theorem dropWhile_length_le (p : α → Bool) (l : List α) :
    (l.dropWhile p).length ≤ l.length := by
  induction l with
  | nil => simp [List.dropWhile]
  | cons a t ih =>
    simp only [List.dropWhile]
    split
    · exact Nat.le_succ_of_le ih
    · simp

/-- Python str.split() with no argument: whitespace-delimited tokens.
A non-whitespace character starts a new token when it is the first
character or follows a whitespace character; otherwise it extends the
current token. -/
def tokens : List Char → List (List Char)
  | [] => []
  | c :: t =>
    let rest := tokens t
    if c.isWhitespace then rest
    else
      match t with
      | [] => [[c]]
      | d :: _ =>
        if d.isWhitespace then [c] :: rest
        else
          match rest with
          | [] => [[c]]
          | w :: ws => (c :: w) :: ws

/-- Python substring membership: containsSub hay pat is (pat in hay). -/
def containsSub (hay pat : List Char) : Bool :=
  match hay with
  | [] => pat.isEmpty
  | c :: t => pat.isPrefixOf (c :: t) || containsSub t pat

/-- Python str.count for a nonempty pattern: non-overlapping occurrences,
scanning left to right and skipping the pattern length after each match
(fuel-driven; fuel hay.length + 1 suffices since each step consumes at
least one character). -/
def countOccFuel : Nat → List Char → List Char → Nat
  | 0, _, _ => 0
  | fuel + 1, hay, pat =>
    match hay with
    | [] => 0
    | c :: t =>
      if pat.isPrefixOf (c :: t) then
        1 + countOccFuel fuel ((c :: t).drop (max 1 pat.length)) pat
      else countOccFuel fuel t pat

/-- Python hay.count(pat): the empty pattern counts len(hay) + 1. -/
def countOcc (hay pat : List Char) : Nat :=
  if pat = [] then hay.length + 1 else countOccFuel (hay.length + 1) hay pat

/-- Python lines[a:b] (with 0 ≤ a ≤ b; clamping is by Nat truncation). -/
def slice (l : List (List Char)) (a b : Nat) : List (List Char) :=
  (l.drop a).take (b - a)

/-- The header regex of the source, r"^(#{1,6})\s+(.+)$", applied to one
physical line (which contains no newline): some (level, group2) on a
match, where group2 is what the greedy (.+) captures after the greedy
\s+ run; none otherwise. -/
def headerMatch (line : List Char) : Option (Nat × List Char) :=
  let n := (line.takeWhile (fun c => c = '#')).length
  if 1 ≤ n ∧ n ≤ 6 then
    let rest := line.drop n
    let w := (rest.takeWhile Char.isWhitespace).length
    if w = 0 then none
    else if w < rest.length then some (n, rest.drop w)
    else if 2 ≤ w then some (n, rest.drop (w - 1))
    else none
  else none

/-- A parsed section record, with the fields the source stores. -/
structure Section where
  title : List Char
  content : List Char
  level : Nat
  doc_type : List Char
  word_count : Nat
deriving DecidableEq, Repr

/-- Finalizing a section in _parse_sections: the stored record built from
the accumulated raw lines.  The source stores the qualified name in the
title field ("title": current_section). -/
def mkSection (docType qname : List Char) (lv : Nat) (cc : List (List Char)) : Section :=
  { title := qname
    content := strip (joinNl cc)
    level := lv
    doc_type := docType
    word_count := (tokens (joinNl cc)).length }

/-- Python dict assignment d[k] = v on an insertion-ordered dict:
overwriting an existing key keeps its position, a new key is appended
(the first binding of k is replaced in place; bindings here are unique
since every dict is built by repeated assignment). -/
def dictInsert (m : List (List Char × Section)) (k : List Char) (v : Section) :
    List (List Char × Section) :=
  match m with
  | [] => [(k, v)]
  | p :: t => if p.1 = k then (k, v) :: t else p :: dictInsert t k v

/-- Python dict lookup (d.get(k)). -/
def dictLookup (m : List (List Char × Section)) (k : List Char) : Option Section :=
  (m.find? (fun p => p.1 = k)).map (fun p => p.2)

/-- Building a dict by repeated insertion from a list of entries. -/
def dictOf (acc : List (List Char × Section)) (L : List (List Char × Section)) :
    List (List Char × Section) :=
  L.foldl (fun m q => dictInsert m q.1 q.2) acc

/-- The loop of _parse_sections.  State: the open section's qualified
name and level (current_section/current_level), the accumulated raw
lines (current_content), and the dict built so far. -/
def parseGo (dt : List Char) (lines : List (List Char))
    (cur : Option (List Char × Nat)) (cc : List (List Char))
    (acc : List (List Char × Section)) : List (List Char × Section) :=
  match lines with
  | [] =>
    match cur with
    | none => acc
    | some (q, lv) => dictInsert acc q (mkSection dt q lv cc)
  | line :: rest =>
    match headerMatch line with
    | some (lv', traw) =>
      let acc' :=
        match cur with
        | none => acc
        | some (q, lv) => dictInsert acc q (mkSection dt q lv cc)
      parseGo dt rest (some (dt ++ str ": " ++ strip traw, lv')) [line] acc'
    | none =>
      match cur with
      | none => parseGo dt rest none cc acc
      | some c => parseGo dt rest (some c) (cc ++ [line]) acc

/-- DocumentParser._parse_sections. -/
def parseSections (content dt : List Char) : List (List Char × Section) :=
  parseGo dt (splitNl content) none [] []

/-- The sections of a document in document order, duplicated qualified
names kept (no dict collapsing): the reference section list. -/
def parseGoList (dt : List Char) (lines : List (List Char))
    (cur : Option (List Char × Nat)) (cc : List (List Char)) :
    List (List Char × Section) :=
  match lines with
  | [] =>
    match cur with
    | none => []
    | some (q, lv) => [(q, mkSection dt q lv cc)]
  | line :: rest =>
    match headerMatch line with
    | some (lv', traw) =>
      let tl := parseGoList dt rest (some (dt ++ str ": " ++ strip traw, lv')) [line]
      match cur with
      | none => tl
      | some (q, lv) => (q, mkSection dt q lv cc) :: tl
    | none =>
      match cur with
      | none => parseGoList dt rest none cc
      | some c => parseGoList dt rest (some c) (cc ++ [line])

/-- Document-order section list of a document. -/
def parseSectionsList (content dt : List Char) : List (List Char × Section) :=
  parseGoList dt (splitNl content) none []

/-- The raw line blocks of a document: the pre-header prefix is dropped,
then each block is one header line plus the following non-header lines. -/
def parseBlocks (lines : List (List Char)) (cur : Bool) (cc : List (List Char)) :
    List (List (List Char)) :=
  match lines with
  | [] => if cur then [cc] else []
  | line :: rest =>
    if (headerMatch line).isSome then
      let tl := parseBlocks rest true [line]
      if cur then cc :: tl else tl
    else parseBlocks rest cur (if cur then cc ++ [line] else cc)

/-- The blocks of a document string. -/
def docBlocks (content : List Char) : List (List (List Char)) :=
  parseBlocks (splitNl content) false []

/-- Stable insertion: x is placed before the first y with cond x y;
processing the input from the right makes the sort stable. -/
def ordInsert (cond : α → α → Bool) (x : α) : List α → List α
  | [] => [x]
  | y :: t => if cond x y then x :: y :: t else y :: ordInsert cond x t

/-- A stable sort placing a before b whenever cond a b; with
cond a b = (key a ≤ key b) this is Python sorted(key=key), with
cond a b = (key b ≤ key a) it is Python sorted(key=key, reverse=True)
(both are stable, so they agree with any stable sort by the same order). -/
def sortByCond (cond : α → α → Bool) : List α → List α
  | [] => []
  | x :: t => ordInsert cond x (sortByCond cond t)

/-- A result row of search_by_section_name. -/
structure TitleResult where
  section_name : List Char
  doc_type : List Char
  level : Nat
  word_count : Nat
  preview : List Char
deriving DecidableEq, Repr

/-- The result row built for one matching section in
search_by_section_name (the dict appended to results). -/
def mkTitleResult (name : List Char) (data : Section) : TitleResult :=
  { section_name := name
    doc_type := data.doc_type
    level := data.level
    word_count := data.word_count
    preview :=
      if 200 < data.content.length then data.content.take 200 ++ str "..."
      else data.content }

/-- The results list of search_by_section_name before the final sort. -/
def searchBySectionNamePre (idx : List (List Char × Section))
    (keyword : List Char) (case_sensitive : Bool) : List TitleResult :=
  let sk := if case_sensitive then keyword else lower keyword
  idx.filterMap (fun p =>
    let sn := if case_sensitive then p.1 else lower p.1
    if containsSub sn sk then some (mkTitleResult p.1 p.2) else none)

/-- DocumentParser.search_by_section_name: filter, then
sorted(results, key=lambda x: x["level"]). -/
def searchBySectionName (idx : List (List Char × Section))
    (keyword : List Char) (case_sensitive : Bool) : List TitleResult :=
  sortByCond (fun a b => a.level ≤ b.level)
    (searchBySectionNamePre idx keyword case_sensitive)

/-- A result row of search_by_content_text. -/
structure ContentResult where
  section_name : List Char
  doc_type : List Char
  level : Nat
  word_count : Nat
  matching_context : List Char
  match_count : Nat
deriving DecidableEq, Repr

/-- The loop over enumerate(content_lines) in search_by_content_text:
for each line whose (case-folded) text contains the keyword, extend
matching_lines with content_lines[max(0,i-1):min(len,i+2)]. -/
def collectContextGo (sk : List Char) (cs : Bool) (allLines : List (List Char)) :
    List (Nat × List Char) → List (List Char)
  | [] => []
  | (i, line) :: rest =>
    (if containsSub (if cs then line else lower line) sk then
        slice allLines (i - 1) (min allLines.length (i + 2))
      else []) ++ collectContextGo sk cs allLines rest

/-- matching_lines for one section's content lines. -/
def collectContext (sk : List Char) (cs : Bool) (contentLines : List (List Char)) :
    List (List Char) :=
  collectContextGo sk cs contentLines contentLines.enum

/-- Specification-side reformulation of the context extraction, stated
independently of the source's loop: for every line index i whose line
contains the keyword (case-folded per the flag), take the window of
line indices [i-1, i+1] intersected with the valid index range, read
the lines at those indices, and concatenate all windows in document
order. -/
def ctxSpec (sk : List Char) (cs : Bool) (lines : List (List Char)) :
    List (List Char) :=
  ((List.range lines.length).filter
      (fun i => containsSub
        (if cs then lines.getD i [] else lower (lines.getD i [])) sk)).flatMap
    (fun i =>
      ((List.range lines.length).filter
          (fun j => decide (i - 1 ≤ j) && decide (j ≤ i + 1))).map
        (fun j => lines.getD j []))

/-- The result row built for one matching section in
search_by_content_text. -/
def mkContentResult (sk : List Char) (cs : Bool) (name : List Char) (data : Section) :
    ContentResult :=
  { section_name := name
    doc_type := data.doc_type
    level := data.level
    word_count := data.word_count
    matching_context := joinNl ((collectContext sk cs (splitNl data.content)).take 10)
    match_count := countOcc (if cs then data.content else lower data.content) sk }

/-- The results list of search_by_content_text before the final sort. -/
def searchByContentTextPre (idx : List (List Char × Section))
    (keyword : List Char) (case_sensitive : Bool) : List ContentResult :=
  let sk := if case_sensitive then keyword else lower keyword
  idx.filterMap (fun p =>
    let sc := if case_sensitive then p.2.content else lower p.2.content
    if containsSub sc sk then some (mkContentResult sk case_sensitive p.1 p.2)
    else none)

/-- DocumentParser.search_by_content_text: filter, then
sorted(results, key=lambda x: x["match_count"], reverse=True). -/
def searchByContentText (idx : List (List Char × Section))
    (keyword : List Char) (case_sensitive : Bool) : List ContentResult :=
  sortByCond (fun a b => b.match_count ≤ a.match_count)
    (searchByContentTextPre idx keyword case_sensitive)

/-- The doc_type tag of the first document (MCP_DOCS_CONTENT). -/
def primaryType : List Char := str "MCP Documentation"

/-- The doc_type tag of the second document (PYTHON_SDK_CONTENT). -/
def secondaryType : List Char := str "Python SDK"

/-- Python {**a, **b}: insert a's entries in order, then b's entries,
overwriting on key collision (the overwritten key keeps its position). -/
def mergeDicts (a b : List (List Char × Section)) : List (List Char × Section) :=
  (a ++ b).foldl (fun m p => dictInsert m p.1 p.2) []

/-- DocumentParser.__init__: self.all_sections = {**mcp, **sdk}. -/
def allSections (doc1 doc2 : List Char) : List (List Char × Section) :=
  mergeDicts (parseSections doc1 primaryType) (parseSections doc2 secondaryType)

/-- DocumentParser.get_section_content: self.all_sections.get(name). -/
def getSectionContent (idx : List (List Char × Section)) (name : List Char) :
    Option Section :=
  dictLookup idx name

/-- The concrete two-section scenario document of the specification. -/
def docC3 : List Char := str "# A\nhello world\n## B\nhello again\n"

/-- A document in which two headers carry the same (trimmed) title. -/
def docDup : List Char := str "# A\nx\n# A\ny"

/-- A document whose single section has content of exactly 250 characters
(the header line "# T", a newline, and 246 further characters). -/
def doc250 : List Char := str "# T\n" ++ List.replicate 246 'a'

/-- The title-search result of the 250-character section of doc250. -/
def titleResult250 : TitleResult :=
  { section_name := str "MCP Documentation: T"
    doc_type := str "MCP Documentation"
    level := 1
    word_count := 3
    preview := str "# T\n" ++ List.replicate 196 'a' ++ str "..." }

/-- The content-search result for the empty keyword on the one-section
document "# A\nok": every line matches, the two overlapping context
windows are concatenated, and the match count is content length + 1. -/
def contentResultEmptyKw : ContentResult :=
  { section_name := str "MCP Documentation: A"
    doc_type := str "MCP Documentation"
    level := 1
    word_count := 3
    matching_context := str "# A\nok\n# A\nok"
    match_count := 7 }

/-- The content-search result for keyword "hello" on section "Doc: A" of
the concrete scenario document, indexed as the primary document. -/
def contentResultHello : ContentResult :=
  { section_name := str "MCP Documentation: A"
    doc_type := str "MCP Documentation"
    level := 1
    word_count := 4
    matching_context := str "# A\nhello world"
    match_count := 1 }

/-! ### Dictionary lemmas -/

theorem dictLookup_nil (k : List Char) : dictLookup [] k = none := rfl

theorem dictLookup_cons (p : List Char × Section) (t : List (List Char × Section))
    (k : List Char) :
    dictLookup (p :: t) k = if p.1 = k then some p.2 else dictLookup t k := by
  by_cases h : p.1 = k <;> simp [dictLookup, List.find?, h]

theorem dictLookup_dictInsert_self (m : List (List Char × Section)) (k : List Char)
    (v : Section) : dictLookup (dictInsert m k v) k = some v := by
  induction m with
  | nil => simp [dictInsert, dictLookup_cons]
  | cons p t ih =>
    by_cases h : p.1 = k
    · simp [dictInsert, h, dictLookup_cons]
    · simp [dictInsert, h, dictLookup_cons, ih]

theorem dictLookup_dictInsert_ne (m : List (List Char × Section)) (k k' : List Char)
    (v : Section) (h : k' ≠ k) :
    dictLookup (dictInsert m k v) k' = dictLookup m k' := by
  have h1 : ¬ (k : List Char) = k' := fun e => h e.symm
  induction m with
  | nil => simp [dictInsert, dictLookup_cons, h1]
  | cons p t ih =>
    by_cases hp : p.1 = k
    · rw [show dictInsert (p :: t) k v = (k, v) :: t by simp [dictInsert, hp]]
      rw [dictLookup_cons, dictLookup_cons]
      have h1 : ¬ (k : List Char) = k' := fun e => h e.symm
      have h2 : ¬ (p.1 : List Char) = k' := by rw [hp]; exact h1
      simp [h1, h2]
    · rw [show dictInsert (p :: t) k v = p :: dictInsert t k v by simp [dictInsert, hp]]
      rw [dictLookup_cons, dictLookup_cons, ih]

theorem mem_keys_dictInsert (m : List (List Char × Section)) (k : List Char)
    (v : Section) (a : List Char) (h : a ∈ (dictInsert m k v).map Prod.fst) :
    a = k ∨ a ∈ m.map Prod.fst := by
  induction m with
  | nil => simp [dictInsert] at h; exact Or.inl h
  | cons p t ih =>
    by_cases hp : p.1 = k
    · rw [show dictInsert (p :: t) k v = (k, v) :: t by simp [dictInsert, hp]] at h
      simp only [List.map_cons, List.mem_cons] at h ⊢
      rcases h with h | h
      · exact Or.inl h
      · exact Or.inr (Or.inr h)
    · rw [show dictInsert (p :: t) k v = p :: dictInsert t k v by simp [dictInsert, hp]] at h
      simp only [List.map_cons, List.mem_cons] at h ⊢
      rcases h with h | h
      · exact Or.inr (Or.inl h)
      · rcases ih h with h' | h'
        · exact Or.inl h'
        · exact Or.inr (Or.inr h')

theorem dictInsert_nodup_keys (m : List (List Char × Section)) (k : List Char)
    (v : Section) (h : (m.map Prod.fst).Nodup) :
    ((dictInsert m k v).map Prod.fst).Nodup := by
  induction m with
  | nil => simp [dictInsert]
  | cons p t ih =>
    simp only [List.map_cons, List.nodup_cons] at h
    by_cases hp : p.1 = k
    · rw [show dictInsert (p :: t) k v = (k, v) :: t by simp [dictInsert, hp]]
      simp only [List.map_cons, List.nodup_cons]
      exact ⟨hp ▸ h.1, h.2⟩
    · rw [show dictInsert (p :: t) k v = p :: dictInsert t k v by simp [dictInsert, hp]]
      simp only [List.map_cons, List.nodup_cons]
      refine ⟨?_, ih h.2⟩
      intro hmem
      rcases mem_keys_dictInsert t k v p.1 hmem with h' | h'
      · exact hp h'
      · exact h.1 h'

theorem mem_dictInsert (m : List (List Char × Section)) (k : List Char) (v : Section)
    (p : List Char × Section) (h : p ∈ dictInsert m k v) : p ∈ m ∨ p = (k, v) := by
  induction m with
  | nil => simp [dictInsert] at h; exact Or.inr h
  | cons q t ih =>
    by_cases hq : q.1 = k
    · rw [show dictInsert (q :: t) k v = (k, v) :: t by simp [dictInsert, hq]] at h
      rcases List.mem_cons.mp h with h' | h'
      · exact Or.inr h'
      · exact Or.inl (List.mem_cons_of_mem _ h')
    · rw [show dictInsert (q :: t) k v = q :: dictInsert t k v by simp [dictInsert, hq]] at h
      rcases List.mem_cons.mp h with h' | h'
      · exact Or.inl (by simp [h'])
      · rcases ih h' with h2 | h2
        · exact Or.inl (List.mem_cons_of_mem _ h2)
        · exact Or.inr h2

theorem dictInsert_eq_append (m : List (List Char × Section)) (k : List Char)
    (v : Section) (h : k ∉ m.map Prod.fst) : dictInsert m k v = m ++ [(k, v)] := by
  induction m with
  | nil => simp [dictInsert]
  | cons p t ih =>
    simp only [List.map_cons, List.mem_cons] at h
    push_neg at h
    have hp : ¬ p.1 = k := fun e => h.1 e.symm
    rw [show dictInsert (p :: t) k v = p :: dictInsert t k v by simp [dictInsert, hp]]
    rw [ih h.2]
    simp

theorem dictOf_nodup_keys (L : List (List Char × Section))
    (acc : List (List Char × Section)) (h : (acc.map Prod.fst).Nodup) :
    ((dictOf acc L).map Prod.fst).Nodup := by
  induction L generalizing acc with
  | nil => exact h
  | cons q T ih => exact ih _ (dictInsert_nodup_keys _ _ _ h)

theorem mem_dictOf (L : List (List Char × Section)) (acc : List (List Char × Section))
    (p : List Char × Section) (h : p ∈ dictOf acc L) : p ∈ acc ∨ p ∈ L := by
  induction L generalizing acc with
  | nil => exact Or.inl h
  | cons q T ih =>
    rcases ih _ h with h' | h'
    · rcases mem_dictInsert _ _ _ _ h' with h2 | h2
      · exact Or.inl h2
      · exact Or.inr (by simp [h2])
    · exact Or.inr (List.mem_cons_of_mem _ h')

theorem dictLookup_dictOf (L : List (List Char × Section))
    (acc : List (List Char × Section)) (k : List Char) :
    dictLookup (dictOf acc L) k =
      ((L.reverse.find? (fun p => p.1 = k)).map Prod.snd).or (dictLookup acc k) := by
  induction L generalizing acc with
  | nil => simp [dictOf]
  | cons q T ih =>
    show dictLookup (dictOf (dictInsert acc q.1 q.2) T) k = _
    rw [ih]
    simp only [List.reverse_cons, List.find?_append]
    cases hT : T.reverse.find? (fun p => decide (p.1 = k)) with
    | some p => simp [Option.or]
    | none =>
      simp only [Option.map_none, Option.none_or]
      by_cases hqk : q.1 = k
      · subst hqk
        simp [List.find?, dictLookup_dictInsert_self, Option.or]
      · have h1 : List.find? (fun p => decide (p.1 = k)) [q] = none := by
          simp [List.find?, hqk]
        rw [h1, dictLookup_dictInsert_ne acc q.1 k q.2 (fun e => hqk e.symm)]

theorem dictOf_of_nodup_keys (L : List (List Char × Section))
    (acc : List (List Char × Section))
    (h : ((acc ++ L).map Prod.fst).Nodup) : dictOf acc L = acc ++ L := by
  induction L generalizing acc with
  | nil => simp [dictOf]
  | cons q T ih =>
    show dictOf (dictInsert acc q.1 q.2) T = acc ++ q :: T
    have hq : q.1 ∉ acc.map Prod.fst := by
      intro hmem
      simp only [List.map_append, List.nodup_append] at h
      rcases h with ⟨_, _, hdisj⟩
      exact hdisj hmem (List.mem_map.mpr ⟨q, by simp, rfl⟩)
    have hins : dictInsert acc q.1 q.2 = acc ++ [q] := dictInsert_eq_append _ _ _ hq
    rw [hins, ih]
    · simp
    · simpa using h

/-! ### Parser lemmas: the dict built by the loop is the document-order
section list folded through dict insertion -/

theorem parseGo_eq_dictOf (dt : List Char) (lines : List (List Char))
    (cur : Option (List Char × Nat)) (cc : List (List Char))
    (acc : List (List Char × Section)) :
    parseGo dt lines cur cc acc = dictOf acc (parseGoList dt lines cur cc) := by
  induction lines generalizing cur cc acc with
  | nil =>
    cases cur with
    | none => simp [parseGo, parseGoList, dictOf]
    | some q => cases q; simp [parseGo, parseGoList, dictOf]
  | cons line rest ih =>
    cases h : headerMatch line with
    | some pr =>
      cases cur with
      | none => simp only [parseGo, parseGoList, h]; exact ih _ _ _
      | some q =>
        cases q
        simp only [parseGo, parseGoList, h]
        rw [ih]
        rfl
    | none =>
      cases cur with
      | none => simp only [parseGo, parseGoList, h]; exact ih _ _ _
      | some q => simp only [parseGo, parseGoList, h]; exact ih _ _ _

theorem parseSections_eq_dictOf (content dt : List Char) :
    parseSections content dt = dictOf [] (parseSectionsList content dt) :=
  parseGo_eq_dictOf dt (splitNl content) none [] []

theorem parseSections_nodup_keys (content dt : List Char) :
    ((parseSections content dt).map Prod.fst).Nodup := by
  rw [parseSections_eq_dictOf]
  exact dictOf_nodup_keys _ _ (by simp)

/-! ### Block lemmas: the raw line blocks partition the document's lines
from the first header onward -/

theorem parseBlocks_flatten_true (lines : List (List Char)) (cc : List (List Char)) :
    (parseBlocks lines true cc).flatten = cc ++ lines := by
  induction lines generalizing cc with
  | nil => simp [parseBlocks]
  | cons line rest ih =>
    by_cases h : (headerMatch line).isSome
    · simp [parseBlocks, h, ih]
    · simp [parseBlocks, h, ih]

theorem parseBlocks_flatten_false (lines : List (List Char)) (cc : List (List Char)) :
    (parseBlocks lines false cc).flatten =
      lines.dropWhile (fun l => !(headerMatch l).isSome) := by
  induction lines generalizing cc with
  | nil => simp [parseBlocks]
  | cons line rest ih =>
    by_cases h : (headerMatch line).isSome
    · have hne : headerMatch line ≠ none := by
        intro e; rw [e] at h; simp at h
      simp [parseBlocks, h, List.dropWhile_cons, parseBlocks_flatten_true, hne]
    · have he : headerMatch line = none := by
        cases hh : headerMatch line
        · rfl
        · rw [hh] at h; simp at h
      simp [parseBlocks, h, List.dropWhile_cons, ih, he]

theorem parseGoList_content_some (dt : List Char) (lines : List (List Char))
    (q : List Char) (lv : Nat) (cc : List (List Char)) :
    (parseGoList dt lines (some (q, lv)) cc).map (fun p => p.2.content) =
      (parseBlocks lines true cc).map (fun b => strip (joinNl b)) := by
  induction lines generalizing q lv cc with
  | nil => simp [parseGoList, parseBlocks, mkSection]
  | cons line rest ih =>
    cases h : headerMatch line with
    | some pr =>
      have h' : (headerMatch line).isSome := by rw [h]; rfl
      simp only [parseGoList, parseBlocks, h, h', if_true]
      simp [mkSection, ih]
    | none =>
      have h' : ¬ (headerMatch line).isSome := by rw [h]; simp
      simp only [parseGoList, parseBlocks, h, h', if_false, if_true]
      exact ih _ _ _

theorem parseGoList_content_none (dt : List Char) (lines : List (List Char))
    (cc cc' : List (List Char)) :
    (parseGoList dt lines none cc).map (fun p => p.2.content) =
      (parseBlocks lines false cc').map (fun b => strip (joinNl b)) := by
  induction lines generalizing cc cc' with
  | nil => simp [parseGoList, parseBlocks]
  | cons line rest ih =>
    cases h : headerMatch line with
    | some pr =>
      have h' : (headerMatch line).isSome := by rw [h]; rfl
      simp only [parseGoList, parseBlocks, h, h', if_true, if_false]
      exact parseGoList_content_some dt rest _ _ _
    | none =>
      have h' : ¬ (headerMatch line).isSome := by rw [h]; simp
      simp only [parseGoList, parseBlocks, h, h', if_false]
      exact ih _ _

/-! ### join/split lemmas -/

theorem joinNl_nil : joinNl [] = [] := by
  simp [joinNl, List.intercalate]

theorem joinNl_single (a : List Char) : joinNl [a] = a := by
  simp [joinNl, List.intercalate]

theorem joinNl_cons_cons (a b : List Char) (r : List (List Char)) :
    joinNl (a :: b :: r) = a ++ '\n' :: joinNl (b :: r) := by
  simp [joinNl, List.intercalate, List.intersperse]

theorem splitNl_ne_nil (s : List Char) : splitNl s ≠ [] := by
  cases s with
  | nil => simp [splitNl]
  | cons c t =>
    simp only [splitNl]
    by_cases h : c = '\n'
    · simp [h]
    · simp only [h, if_false]
      cases splitNl t <;> simp

theorem joinNl_cons_head (c : Char) (h : List Char) (r : List (List Char)) :
    joinNl ((c :: h) :: r) = c :: joinNl (h :: r) := by
  cases r with
  | nil => simp [joinNl_single]
  | cons b r' => simp [joinNl_cons_cons]

theorem joinNl_splitNl (s : List Char) : joinNl (splitNl s) = s := by
  induction s with
  | nil => simp [splitNl, joinNl_single]
  | cons c t ih =>
    by_cases h : c = '\n'
    · subst h
      rcases List.exists_cons_of_ne_nil (splitNl_ne_nil t) with ⟨hd, tl, he⟩
      rw [he] at ih
      simp [splitNl, he, joinNl_cons_cons, ih]
    · rcases List.exists_cons_of_ne_nil (splitNl_ne_nil t) with ⟨hd, tl, he⟩
      rw [he] at ih
      simp only [splitNl, h, if_false, he]
      rw [joinNl_cons_head, ih]

/-! ### Stable sort lemmas -/

theorem ordInsert_perm (cond : α → α → Bool) (x : α) (l : List α) :
    (ordInsert cond x l).Perm (x :: l) := by
  induction l with
  | nil => exact List.Perm.refl _
  | cons y t ih =>
    by_cases h : cond x y
    · simp [ordInsert, h]
    · simp only [ordInsert, h, if_false]
      exact (ih.cons y).trans (List.Perm.swap x y t)

theorem sortByCond_perm (cond : α → α → Bool) (l : List α) :
    (sortByCond cond l).Perm l := by
  induction l with
  | nil => exact List.Perm.refl _
  | cons x t ih => exact (ordInsert_perm cond x _).trans (ih.cons x)

theorem mem_ordInsert (cond : α → α → Bool) (x : α) (l : List α) (a : α)
    (h : a ∈ ordInsert cond x l) : a = x ∨ a ∈ l := by
  have := (ordInsert_perm cond x l).mem_iff.mp h
  simpa using this

theorem pairwise_ordInsert (cond : α → α → Bool)
    (htot : ∀ a b, cond a b = true ∨ cond b a = true)
    (htr : ∀ a b c, cond a b = true → cond b c = true → cond a c = true)
    (x : α) (l : List α) (h : l.Pairwise (fun a b => cond a b = true)) :
    (ordInsert cond x l).Pairwise (fun a b => cond a b = true) := by
  induction l with
  | nil => simp [ordInsert]
  | cons y t ih =>
    rcases List.pairwise_cons.mp h with ⟨hy, ht⟩
    by_cases hxy : cond x y
    · simp only [ordInsert, hxy, if_true]
      refine List.pairwise_cons.mpr ⟨?_, h⟩
      intro z hz
      rcases List.mem_cons.mp hz with rfl | hz'
      · exact hxy
      · exact htr x y z hxy (hy z hz')
    · simp only [ordInsert, hxy, if_false]
      refine List.pairwise_cons.mpr ⟨?_, ih ht⟩
      intro z hz
      rcases mem_ordInsert cond x t z hz with rfl | hz'
      · rcases htot z y with h' | h'
        · exact (hxy h').elim
        · exact h'
      · exact hy z hz'

theorem sortByCond_pairwise (cond : α → α → Bool)
    (htot : ∀ a b, cond a b = true ∨ cond b a = true)
    (htr : ∀ a b c, cond a b = true → cond b c = true → cond a c = true)
    (l : List α) :
    (sortByCond cond l).Pairwise (fun a b => cond a b = true) := by
  induction l with
  | nil => simp [sortByCond]
  | cons x t ih => exact pairwise_ordInsert cond htot htr x _ ih

theorem filter_ordInsert (cond : α → α → Bool) (P : α → Bool) (x : α) (l : List α)
    (hp : ∀ b ∈ l, cond x b = false → ¬(P x = true ∧ P b = true)) :
    (ordInsert cond x l).filter P = if P x then x :: l.filter P else l.filter P := by
  induction l with
  | nil => simp [ordInsert, List.filter_cons]
  | cons y t ih =>
    by_cases hxy : cond x y
    · rw [show ordInsert cond x (y :: t) = x :: y :: t by simp [ordInsert, hxy]]
      rw [List.filter_cons]
    · rw [show ordInsert cond x (y :: t) = y :: ordInsert cond x t by
        simp [ordInsert, hxy]]
      have hrec := ih (fun b hb => hp b (List.mem_cons_of_mem _ hb))
      rw [List.filter_cons, hrec, List.filter_cons]
      by_cases hPx : P x
      · have hPy : ¬ P y = true := fun hPy =>
          hp y (by simp) (by simpa using hxy) ⟨hPx, hPy⟩
        simp [hPx, hPy]
      · simp [hPx]

theorem filter_sortByCond (cond : α → α → Bool) (P : α → Bool) (l : List α)
    (h : ∀ a ∈ l, ∀ b ∈ l, cond a b = false → ¬(P a = true ∧ P b = true)) :
    (sortByCond cond l).filter P = l.filter P := by
  induction l with
  | nil => simp [sortByCond]
  | cons x t ih =>
    show (ordInsert cond x (sortByCond cond t)).filter P = _
    rw [filter_ordInsert cond P x _ ?hp]
    case hp =>
      intro b hb hcond
      have hbt : b ∈ t := (sortByCond_perm cond t).mem_iff.mp hb
      exact h x (by simp) b (List.mem_cons_of_mem _ hbt) hcond
    rw [ih (fun a ha b hb => h a (List.mem_cons_of_mem _ ha) b (List.mem_cons_of_mem _ hb))]
    rw [List.filter_cons]

/-! ### Context-extraction lemmas: the source's line loop equals the
per-index window specification -/

theorem flatMap_congr_mem (l : List α) (f g : α → List γ)
    (h : ∀ a ∈ l, f a = g a) : l.flatMap f = l.flatMap g := by
  induction l with
  | nil => rfl
  | cons x t ih =>
    simp only [List.flatMap_cons]
    rw [h x (by simp), ih (fun a ha => h a (List.mem_cons_of_mem _ ha))]

theorem flatMap_if_filter (l : List Nat) (p : Nat → Bool) (w : Nat → List γ) :
    l.flatMap (fun a => if p a then w a else []) = (l.filter p).flatMap w := by
  induction l with
  | nil => rfl
  | cons x t ih =>
    by_cases h : p x
    · simp [List.flatMap_cons, List.filter_cons, h, ih]
    · simp [List.flatMap_cons, List.filter_cons, h, ih]

theorem collectContextGo_eq_flatMap (sk : List Char) (cs : Bool)
    (all : List (List Char)) (ps : List (Nat × List Char)) :
    collectContextGo sk cs all ps =
      ps.flatMap (fun pr =>
        if containsSub (if cs then pr.2 else lower pr.2) sk then
          slice all (pr.1 - 1) (min all.length (pr.1 + 2))
        else []) := by
  induction ps with
  | nil => rfl
  | cons pr rest ih =>
    cases pr
    simp only [collectContextGo, List.flatMap_cons]
    rw [ih]

theorem enumFrom_flatMap (L : List α) (k : Nat) (g : Nat × α → List γ) (d : α) :
    (List.enumFrom k L).flatMap g =
      (List.range' k L.length).flatMap (fun i => g (i, L.getD (i - k) d)) := by
  induction L generalizing k with
  | nil => simp
  | cons x t ih =>
    show ((k, x) :: List.enumFrom (k + 1) t).flatMap g = _
    rw [List.flatMap_cons, ih (k + 1)]
    have hrange : List.range' k (t.length + 1) = k :: List.range' (k + 1) t.length :=
      List.range'_succ k t.length 1
    rw [show (x :: t).length = t.length + 1 from rfl, hrange, List.flatMap_cons]
    have hhead : (x :: t).getD (k - k) d = x := by simp
    rw [hhead]
    congr 1
    apply flatMap_congr_mem
    intro i hi
    rcases List.mem_range'.mp hi with ⟨j, hj, rfl⟩
    have h1 : k + 1 + 1 * j - k = j + 1 := by omega
    have h2 : k + 1 + 1 * j - (k + 1) = j := by omega
    rw [h1, h2]
    rfl

theorem slice_eq_range'_map (l : List (List Char)) (a c : Nat) :
    (l.drop a).take c =
      (List.range' a (min c (l.length - a))).map (fun j => l.getD j []) := by
  apply List.ext_getElem
  · simp [List.length_take, List.length_drop]
  · intro n h1 h2
    have hn : n < min c (l.length - a) := by
      rw [List.length_take, List.length_drop] at h1
      exact h1
    have hlt : a + n < l.length := by omega
    rw [List.getElem_map]
    rw [List.getElem_take, List.getElem_drop]
    rw [List.getElem_range']
    have : a + 1 * n = a + n := by omega
    rw [this, List.getD_eq_getElem l [] hlt]

theorem range_filter_eq_range' (n a b : Nat) :
    (List.range n).filter (fun j => decide (a ≤ j) && decide (j < b)) =
      List.range' a (min b n - a) := by
  induction n with
  | zero => simp
  | succ m ih =>
    rw [List.range_succ, List.filter_append, ih]
    by_cases hab : a ≤ m ∧ m < b
    · have h1 : (List.range' a (min b m - a)) ++ [m] = List.range' a (min b (m + 1) - a) := by
        have hm1 : min b m = m := by omega
        have hm2 : min b (m + 1) = m + 1 := by omega
        rw [hm1, hm2]
        have h3 : m + 1 - a = (m - a) + 1 := by omega
        rw [h3, List.range'_concat]
        have h4 : a + 1 * (m - a) = m := by omega
        rw [h4]
      rw [← h1]
      congr 1
      simp [hab.1, hab.2]
    · have hf : List.filter (fun j => decide (a ≤ j) && decide (j < b)) [m] = [] := by
        simp only [List.filter_cons, List.filter_nil]
        rw [if_neg]
        intro hc
        simp at hc
        exact hab hc
      rw [hf, List.append_nil]
      congr 1
      omega

theorem window_eq_slice (lines : List (List Char)) (i : Nat) :
    ((List.range lines.length).filter
        (fun j => decide (i - 1 ≤ j) && decide (j ≤ i + 1))).map
      (fun j => lines.getD j []) =
      slice lines (i - 1) (min lines.length (i + 2)) := by
  have hpred : (List.range lines.length).filter
      (fun j => decide (i - 1 ≤ j) && decide (j ≤ i + 1)) =
      (List.range lines.length).filter
        (fun j => decide (i - 1 ≤ j) && decide (j < i + 2)) := by
    apply List.filter_congr
    intro j _
    have hdec : decide (j ≤ i + 1) = decide (j < i + 2) :=
      decide_eq_decide.mpr (by omega)
    rw [hdec]
  rw [hpred, range_filter_eq_range' lines.length (i - 1) (i + 2)]
  unfold slice
  rw [slice_eq_range'_map]
  have : min (min lines.length (i + 2) - (i - 1)) (lines.length - (i - 1)) =
      min (i + 2) lines.length - (i - 1) := by omega
  rw [this]

theorem collectContext_eq_ctxSpec (sk : List Char) (cs : Bool)
    (lines : List (List Char)) :
    collectContext sk cs lines = ctxSpec sk cs lines := by
  unfold collectContext ctxSpec
  rw [show lines.enum = List.enumFrom 0 lines from rfl]
  rw [collectContextGo_eq_flatMap, enumFrom_flatMap _ _ _ []]
  rw [show List.range' 0 lines.length = List.range lines.length from
    (List.range_eq_range' lines.length).symm]
  simp only [Nat.sub_zero]
  rw [flatMap_if_filter]
  apply flatMap_congr_mem
  intro i _
  exact (window_eq_slice lines i).symm

/-! ### Basic lemmas on the string primitives -/

theorem lower_length (s : List Char) : (lower s).length = s.length := by
  simp [lower]

theorem containsSub_nil (hay : List Char) : containsSub hay [] = true := by
  cases hay <;> simp [containsSub, List.isPrefixOf]

theorem countOcc_nil_pat (hay : List Char) : countOcc hay [] = hay.length + 1 := by
  simp [countOcc]

theorem dropWhile_prefix_self (p : Char → Bool) (y z : List Char)
    (hyz : y <+: z) (hz : z.dropWhile p = z) : y.dropWhile p = y := by
  cases y with
  | nil => rfl
  | cons a t =>
    rcases hyz with ⟨r, hr⟩
    by_cases hpa : p a
    · exfalso
      rw [← hr] at hz
      have : ((a :: t) ++ r).dropWhile p = (t ++ r).dropWhile p := by
        simp [List.dropWhile_cons, hpa]
      rw [this] at hz
      have hle := dropWhile_length_le p (t ++ r)
      rw [hz] at hle
      simp at hle
    · simp [List.dropWhile_cons, hpa]

theorem strip_dropWhile (l : List Char) :
    (strip l).dropWhile Char.isWhitespace = strip l := by
  have h1 : strip l =
      List.rdropWhile Char.isWhitespace (l.dropWhile Char.isWhitespace) := rfl
  rw [h1]
  exact dropWhile_prefix_self _ _ _
    ( List.rdropWhile_prefix _ _) (List.dropWhile_idempotent _ _)

theorem strip_idem (l : List Char) : strip (strip l) = strip l := by
  have h1 : strip (strip l) =
      List.rdropWhile Char.isWhitespace ((strip l).dropWhile Char.isWhitespace) := rfl
  rw [h1, strip_dropWhile]
  have h2 : strip l =
      List.rdropWhile Char.isWhitespace (l.dropWhile Char.isWhitespace) := rfl
  rw [h2, List.rdropWhile_idempotent]

/-! ### The qualified-name/title invariant of the parser -/

theorem parseGoList_key_title (dt : List Char) (lines : List (List Char)) :
    ∀ (cur : Option (List Char × Nat)) (cc : List (List Char))
      (p : List Char × Section),
      (∀ q lv, cur = some (q, lv) → ∃ t, q = dt ++ str ": " ++ t ∧ strip t = t) →
      p ∈ parseGoList dt lines cur cc →
      p.2.title = p.1 ∧ ∃ t, p.1 = dt ++ str ": " ++ t ∧ strip t = t := by
  induction lines with
  | nil =>
    intro cur cc p hcur hp
    cases cur with
    | none => simp [parseGoList] at hp
    | some q =>
      cases q with
      | mk qn lv =>
        simp only [parseGoList, List.mem_singleton] at hp
        subst hp
        exact ⟨rfl, hcur qn lv rfl⟩
  | cons line rest ih =>
    intro cur cc p hcur hp
    cases h : headerMatch line with
    | some pr =>
      cases pr with
      | mk lv' traw =>
        have hnew : ∀ q lv,
            (some (dt ++ str ": " ++ strip traw, lv') : Option (List Char × Nat)) =
              some (q, lv) →
            ∃ t, q = dt ++ str ": " ++ t ∧ strip t = t := by
          intro q lv he
          injection he with he'
          injection he' with he1 he2
          exact ⟨strip traw, he1.symm, strip_idem traw⟩
        cases cur with
        | none =>
          simp only [parseGoList, h] at hp
          exact ih _ _ _ hnew hp
        | some q =>
          cases q with
          | mk qn lv =>
            simp only [parseGoList, h, List.mem_cons] at hp
            rcases hp with hp | hp
            · subst hp
              exact ⟨rfl, hcur qn lv rfl⟩
            · exact ih _ _ _ hnew hp
    | none =>
      cases cur with
      | none =>
        simp only [parseGoList, h] at hp
        exact ih _ _ _ hcur hp
      | some q =>
        simp only [parseGoList, h] at hp
        exact ih _ _ _ hcur hp

theorem mem_parseSections (content dt : List Char) (p : List Char × Section)
    (h : p ∈ parseSections content dt) : p ∈ parseSectionsList content dt := by
  rw [parseSections_eq_dictOf] at h
  rcases mem_dictOf _ _ _ h with h' | h'
  · simp at h'
  · exact h'

theorem mem_allSections (doc1 doc2 : List Char) (p : List Char × Section)
    (h : p ∈ allSections doc1 doc2) :
    p ∈ parseSections doc1 primaryType ∨ p ∈ parseSections doc2 secondaryType := by
  unfold allSections mergeDicts at h
  rcases mem_dictOf _ _ _ h with h' | h'
  · simp at h'
  · exact List.mem_append.mp h'

/-! ### Search-result membership and empty-keyword lemmas -/

theorem mem_searchBySectionName (idx : List (List Char × Section))
    (kw : List Char) (cs : Bool) (r : TitleResult)
    (h : r ∈ searchBySectionName idx kw cs) :
    ∃ p, p ∈ idx ∧ r = mkTitleResult p.1 p.2 := by
  unfold searchBySectionName at h
  have h2 := (sortByCond_perm _ _).mem_iff.mp h
  unfold searchBySectionNamePre at h2
  simp only at h2
  rcases List.mem_filterMap.mp h2 with ⟨p, hp, he⟩
  by_cases hc : containsSub (if cs then p.1 else lower p.1)
      (if cs then kw else lower kw)
  · rw [if_pos hc] at he
    exact ⟨p, hp, (Option.some_inj.mp he).symm⟩
  · rw [if_neg hc] at he
    cases he

theorem mem_searchByContentText (idx : List (List Char × Section))
    (kw : List Char) (cs : Bool) (r : ContentResult)
    (h : r ∈ searchByContentText idx kw cs) :
    ∃ p, p ∈ idx ∧ r = mkContentResult (if cs then kw else lower kw) cs p.1 p.2 := by
  unfold searchByContentText at h
  have h2 := (sortByCond_perm _ _).mem_iff.mp h
  unfold searchByContentTextPre at h2
  simp only at h2
  rcases List.mem_filterMap.mp h2 with ⟨p, hp, he⟩
  by_cases hc : containsSub (if cs then p.2.content else lower p.2.content)
      (if cs then kw else lower kw)
  · rw [if_pos hc] at he
    exact ⟨p, hp, (Option.some_inj.mp he).symm⟩
  · rw [if_neg hc] at he
    cases he

theorem searchBySectionNamePre_empty_kw (idx : List (List Char × Section)) (cs : Bool) :
    searchBySectionNamePre idx [] cs = idx.map (fun p => mkTitleResult p.1 p.2) := by
  unfold searchBySectionNamePre
  have hsk : (if cs then ([] : List Char) else lower []) = [] := by cases cs <;> rfl
  rw [hsk]
  simp only [containsSub_nil, if_true]
  exact congrFun (List.filterMap_eq_map _) idx

theorem searchByContentTextPre_empty_kw (idx : List (List Char × Section)) (cs : Bool) :
    searchByContentTextPre idx [] cs = idx.map (fun p => mkContentResult [] cs p.1 p.2) := by
  unfold searchByContentTextPre
  have hsk : (if cs then ([] : List Char) else lower []) = [] := by cases cs <;> rfl
  rw [hsk]
  simp only [containsSub_nil, if_true]
  exact congrFun (List.filterMap_eq_map _) idx

theorem searchByContentText_empty_kw_length (idx : List (List Char × Section))
    (cs : Bool) : (searchByContentText idx [] cs).length = idx.length := by
  unfold searchByContentText
  rw [(sortByCond_perm _ _).length_eq, searchByContentTextPre_empty_kw]
  simp

theorem searchBySectionName_empty_kw_length (idx : List (List Char × Section))
    (cs : Bool) : (searchBySectionName idx [] cs).length = idx.length := by
  unfold searchBySectionName
  rw [(sortByCond_perm _ _).length_eq, searchBySectionNamePre_empty_kw]
  simp

/-! ### Lookup lemmas under unique keys -/

theorem mem_keys_of_mem (m : List (List Char × Section)) (k : List Char) (v : Section)
    (h : (k, v) ∈ m) : k ∈ m.map Prod.fst :=
  List.mem_map.mpr ⟨(k, v), h, rfl⟩

theorem dictLookup_of_mem (m : List (List Char × Section)) (k : List Char) (v : Section)
    (hnd : (m.map Prod.fst).Nodup) (h : (k, v) ∈ m) : dictLookup m k = some v := by
  induction m with
  | nil => cases h
  | cons p t ih =>
    simp only [List.map_cons, List.nodup_cons] at hnd
    rcases List.mem_cons.mp h with h' | h'
    · rw [← h', dictLookup_cons]
      simp
    · have hk : k ∈ t.map Prod.fst := mem_keys_of_mem t k v h'
      have hne : ¬ p.1 = k := fun e => hnd.1 (e ▸ hk)
      rw [dictLookup_cons, if_neg hne]
      exact ih hnd.2 h'

theorem dictLookup_isSome_iff (m : List (List Char × Section)) (k : List Char) :
    (dictLookup m k).isSome ↔ k ∈ m.map Prod.fst := by
  induction m with
  | nil => simp [dictLookup]
  | cons p t ih =>
    rw [dictLookup_cons]
    by_cases h : p.1 = k
    · rw [if_pos h]
      simp only [Option.isSome_some, List.map_cons, List.mem_cons]
      constructor
      · intro _
        exact Or.inl h.symm
      · intro _
        trivial
    · simp only [h, if_false, List.map_cons, List.mem_cons, ih]
      constructor
      · intro h'
        exact Or.inr h'
      · intro h'
        rcases h' with h' | h'
        · exact (h h'.symm).elim
        · exact h'

theorem dictLookup_eq_none (m : List (List Char × Section)) (k : List Char)
    (h : k ∉ m.map Prod.fst) : dictLookup m k = none := by
  cases ho : dictLookup m k with
  | none => rfl
  | some v =>
    exfalso
    exact h ((dictLookup_isSome_iff m k).mp (by rw [ho]; rfl))

theorem find?_reverse_of_nodup (m : List (List Char × Section)) (k : List Char)
    (hnd : (m.map Prod.fst).Nodup) :
    m.reverse.find? (fun p => p.1 = k) = m.find? (fun p => p.1 = k) := by
  induction m with
  | nil => rfl
  | cons p t ih =>
    simp only [List.map_cons, List.nodup_cons] at hnd
    rw [List.reverse_cons, List.find?_append, ih hnd.2]
    by_cases hp : p.1 = k
    · have ht : t.find? (fun q => q.1 = k) = none := by
        rw [List.find?_eq_none]
        intro q hq hqk
        apply hnd.1
        rw [hp]
        have : (q.1 : List Char) = k := by simpa using hqk
        rw [← this]
        exact List.mem_map.mpr ⟨q, hq, rfl⟩
      rw [ht]
      simp [List.find?, hp]
    · rw [show List.find? (fun q => decide (q.1 = k)) [p] = none by simp [List.find?, hp]]
      rw [show List.find? (fun q => decide (q.1 = k)) (p :: t) =
        List.find? (fun q => decide (q.1 = k)) t by simp [List.find?, hp]]
      cases t.find? (fun q => decide (q.1 = k)) <;> rfl

theorem option_map_or (f : (List Char × Section) → Section)
    (x y : Option (List Char × Section)) :
    (x.or y).map f = (x.map f).or (y.map f) := by
  cases x <;> rfl

theorem allSections_nodup_keys (doc1 doc2 : List Char) :
    ((allSections doc1 doc2).map Prod.fst).Nodup := by
  unfold allSections mergeDicts
  exact dictOf_nodup_keys _ _ (by simp)

theorem dictLookup_parseSections (d dt k : List Char) :
    dictLookup (parseSections d dt) k =
      ((parseSectionsList d dt).reverse.find? (fun p => p.1 = k)).map Prod.snd := by
  rw [parseSections_eq_dictOf]
  rw [show dictOf [] (parseSectionsList d dt) = dictOf [] (parseSectionsList d dt) from rfl]
  rw [dictLookup_dictOf]
  rw [show dictLookup [] k = none from rfl]
  cases (parseSectionsList d dt).reverse.find? (fun p => p.1 = k) <;> rfl

/-! ### Claim theorems -/

/-- C9: for every string n, the section lookup on the merged index
returns the section stored under key n when n is a key, and none (the
NotFound sentinel, not an exception - the lookup is a total function)
when it is not. -/
theorem get_section_content_lookup (doc1 doc2 n : List Char) :
    ((getSectionContent (allSections doc1 doc2) n).isSome ↔
      n ∈ (allSections doc1 doc2).map Prod.fst) ∧
    (∀ s, (n, s) ∈ allSections doc1 doc2 →
      getSectionContent (allSections doc1 doc2) n = some s) ∧
    (n ∉ (allSections doc1 doc2).map Prod.fst →
      getSectionContent (allSections doc1 doc2) n = none) := by
  refine ⟨dictLookup_isSome_iff _ _, ?_, ?_⟩
  · intro s hs
    exact dictLookup_of_mem _ _ _ (allSections_nodup_keys doc1 doc2) hs
  · intro hn
    exact dictLookup_eq_none _ _ hn

/-- C9 witness: on the concrete two-section index, looking up the
unknown qualified name "Doc: Z" returns none. -/
theorem get_section_content_lookup_witness :
    getSectionContent (allSections docC3 (str "")) (str "Doc: Z") = none :=
  (get_section_content_lookup docC3 (str "") (str "Doc: Z")).2.2 (by decide)

/-- C10: the merged index has pairwise distinct qualified names; a key
present in both documents resolves to the SecondaryDoc (Python SDK)
section, merged after the PrimaryDoc (MCP Documentation) sections; and
within one document the binding of a key is the last section of the
document (in document order) carrying that qualified name. -/
theorem merged_index_last_write_wins (doc1 doc2 : List Char) :
    ((allSections doc1 doc2).map Prod.fst).Nodup ∧
    (∀ k, dictLookup (allSections doc1 doc2) k =
      (dictLookup (parseSections doc2 secondaryType) k).or
        (dictLookup (parseSections doc1 primaryType) k)) ∧
    (∀ d dt k, dictLookup (parseSections d dt) k =
      ((parseSectionsList d dt).reverse.find? (fun p => p.1 = k)).map Prod.snd) := by
  refine ⟨allSections_nodup_keys doc1 doc2, ?_, fun d dt k => dictLookup_parseSections d dt k⟩
  intro k
  rw [show allSections doc1 doc2 =
    dictOf [] (parseSections doc1 primaryType ++ parseSections doc2 secondaryType) from rfl]
  rw [dictLookup_dictOf]
  rw [show dictLookup [] k = none from rfl]
  rw [List.reverse_append, List.find?_append, option_map_or]
  rw [find?_reverse_of_nodup _ _ (parseSections_nodup_keys doc2 secondaryType)]
  rw [find?_reverse_of_nodup _ _ (parseSections_nodup_keys doc1 primaryType)]
  unfold dictLookup
  cases (parseSections doc2 secondaryType).find? (fun p => p.1 = k) <;>
    cases (parseSections doc1 primaryType).find? (fun p => p.1 = k) <;> rfl

/-- C1 counterexample: on the document "# A\nx\n# A\ny", whose two
headers produce the same qualified name, the parser output has a single
section and its content does not reproduce the two raw blocks, so the
re-joined contents cannot reconstruct the document (the line "x" is
lost entirely, which no amount of boundary trimming can explain). -/
theorem parse_reconstruction_counterexample :
    ¬ ((parseSections docDup (str "Doc")).map (fun p => p.2.content) =
      (docBlocks docDup).map (fun b => strip (joinNl b))) := by
  decide

/-- C1 (amended): provided the sections of the document have pairwise
distinct qualified names, the parser's sections in document order have
as contents exactly the trimmed raw line blocks of the document, and
those blocks concatenate to the document's lines from the first header
line onward; re-joining the pre-header prefix with the blocks gives
back the document exactly. -/
theorem parse_reconstructs_document (D dt : List Char)
    (h : ((parseSectionsList D dt).map Prod.fst).Nodup) :
    (parseSections D dt).map (fun p => p.2.content) =
      (docBlocks D).map (fun b => strip (joinNl b)) ∧
    (docBlocks D).flatten =
      (splitNl D).dropWhile (fun l => !(headerMatch l).isSome) ∧
    joinNl ((splitNl D).takeWhile (fun l => !(headerMatch l).isSome) ++
      (docBlocks D).flatten) = D := by
  refine ⟨?_, parseBlocks_flatten_false _ _, ?_⟩
  · rw [parseSections_eq_dictOf, dictOf_of_nodup_keys _ _ (by simpa using h)]
    exact parseGoList_content_none dt (splitNl D) [] []
  · rw [show docBlocks D = parseBlocks (splitNl D) false [] from rfl]
    rw [parseBlocks_flatten_false, List.takeWhile_append_dropWhile]
    exact joinNl_splitNl D

/-- C1 witness: the amended round-trip instantiated on the concrete
two-section document, whose qualified names are distinct. -/
theorem parse_reconstructs_document_witness :
    ((parseSectionsList docC3 (str "Doc")).map Prod.fst).Nodup ∧
    ((parseSections docC3 (str "Doc")).map (fun p => p.2.content) =
      (docBlocks docC3).map (fun b => strip (joinNl b)) ∧
    (docBlocks docC3).flatten =
      (splitNl docC3).dropWhile (fun l => !(headerMatch l).isSome) ∧
    joinNl ((splitNl docC3).takeWhile (fun l => !(headerMatch l).isSome) ++
      (docBlocks docC3).flatten) = docC3) :=
  ⟨by decide, parse_reconstructs_document docC3 (str "Doc") (by decide)⟩

/-- C2 counterexample: parsing "# A" with doc_type "Doc" yields one
section whose title field is "Doc: A" - the qualified name, carrying
the doc_type prefix - and not the bare trimmed header text "A". -/
theorem title_unqualified_counterexample :
    (parseSections (str "# A") (str "Doc")).map (fun p => p.2.title) =
      [str "Doc: A"] ∧ str "Doc: A" ≠ str "A" := by
  decide

/-- C2 (amended): for every section produced by the parser, the title
field equals the qualified name under which the section is stored (the
source stores current_section in the title field), and that qualified
name is the doc_type prefix followed by ": " and the trimmed header
text. -/
theorem title_equals_qualified_name (D dt : List Char) (p : List Char × Section)
    (h : p ∈ parseSections D dt) :
    p.2.title = p.1 ∧ ∃ t, p.1 = dt ++ str ": " ++ t ∧ strip t = t := by
  refine parseGoList_key_title dt (splitNl D) none [] p ?_ (mem_parseSections D dt p h)
  intro q lv he
  cases he

/-- C2 witness: the title/qualified-name equation instantiated at the
section "Doc: A" of the concrete document. -/
theorem title_equals_qualified_name_witness :
    (str "Doc: A",
      ({ title := str "Doc: A", content := str "# A\nx", level := 1,
         doc_type := str "Doc", word_count := 3 } : Section)) ∈
        parseSections (str "# A\nx") (str "Doc") ∧
    (((str "Doc: A",
      ({ title := str "Doc: A", content := str "# A\nx", level := 1,
         doc_type := str "Doc", word_count := 3 } : Section)) :
        List Char × Section).2.title = str "Doc: A" ∧
      ∃ t, str "Doc: A" = str "Doc" ++ str ": " ++ t ∧ strip t = t) :=
  ⟨by decide, title_equals_qualified_name (str "# A\nx") (str "Doc") _ (by decide)⟩

/-- C3 counterexample: in the concrete scenario the two sections have
word_count 4, not 3 (the header marker "#" and "##" each count as a
whitespace-delimited token of the content). -/
theorem concrete_scenario_counterexample :
    ¬ ((parseSections docC3 (str "Doc")).map (fun p => p.2.word_count) = [3, 3]) := by
  decide

/-- C3 (amended): parsing the concrete document with doc_type "Doc"
yields exactly the two sections "Doc: A" (level 1, content
"# A\nhello world", word_count 4) and "Doc: B" (level 2, content
"## B\nhello again", word_count 4), and the content search for "hello"
on that index returns both sections with match_count 1 each, "Doc: A"
before "Doc: B". -/
theorem concrete_scenario :
    parseSections docC3 (str "Doc") =
      [(str "Doc: A",
        { title := str "Doc: A", content := str "# A\nhello world", level := 1,
          doc_type := str "Doc", word_count := 4 }),
       (str "Doc: B",
        { title := str "Doc: B", content := str "## B\nhello again", level := 2,
          doc_type := str "Doc", word_count := 4 })] ∧
    searchByContentText (parseSections docC3 (str "Doc")) (str "hello") false =
      [{ section_name := str "Doc: A", doc_type := str "Doc", level := 1,
         word_count := 4, matching_context := str "# A\nhello world",
         match_count := 1 },
       { section_name := str "Doc: B", doc_type := str "Doc", level := 2,
         word_count := 4, matching_context := str "## B\nhello again",
         match_count := 1 }] := by
  constructor
  · decide
  · decide

/-- C4: every emitted content-search result carries match_count equal to
the number of non-overlapping occurrences (Python str.count semantics)
of the case-folded keyword in the section's case-folded full content;
for the empty keyword the count is content length + 1 and every section
of the merged index is returned. -/
theorem content_match_count (doc1 doc2 kw : List Char) (cs : Bool) :
    (∀ r ∈ searchByContentText (allSections doc1 doc2) kw cs,
      ∃ p, p ∈ allSections doc1 doc2 ∧ r.section_name = p.1 ∧
        r.match_count = countOcc (if cs then p.2.content else lower p.2.content)
          (if cs then kw else lower kw) ∧
        (kw = [] → r.match_count = p.2.content.length + 1)) ∧
    (kw = [] → (searchByContentText (allSections doc1 doc2) kw cs).length =
      (allSections doc1 doc2).length) := by
  constructor
  · intro r hr
    rcases mem_searchByContentText _ _ _ _ hr with ⟨p, hp, he⟩
    subst he
    refine ⟨p, hp, rfl, rfl, ?_⟩
    intro hkw
    subst hkw
    show countOcc (if cs then p.2.content else lower p.2.content)
      (if cs then [] else lower []) = _
    rw [show (if cs then ([] : List Char) else lower []) = [] by cases cs <;> rfl]
    rw [countOcc_nil_pat]
    cases cs
    · simp [lower_length]
    · simp
  · intro hkw
    subst hkw
    exact searchByContentText_empty_kw_length _ cs

/-- C4 witness: the empty-keyword search on the one-section document
"# A\nok" (content length 6) returns its section with match_count 7,
and the result count equals the index size. -/
theorem content_match_count_witness :
    (∃ p, p ∈ allSections (str "# A\nok") (str "") ∧
      contentResultEmptyKw.section_name = p.1 ∧
      contentResultEmptyKw.match_count =
        countOcc (if false then p.2.content else lower p.2.content)
          (if false then [] else lower []) ∧
      (([] : List Char) = [] →
        contentResultEmptyKw.match_count = p.2.content.length + 1)) ∧
    (searchByContentText (allSections (str "# A\nok") (str "")) [] false).length =
      (allSections (str "# A\nok") (str "")).length :=
  ⟨(content_match_count (str "# A\nok") (str "") [] false).1
      contentResultEmptyKw (by decide),
   (content_match_count (str "# A\nok") (str "") [] false).2 rfl⟩

/-- C5: the content-search output is sorted descending by match_count
(any earlier result has match_count greater than or equal to any later
one), and results with equal match_count appear exactly in the
encounter order of the merged index (the pre-sort results list): the
sort is stable. -/
theorem content_results_sorted_desc (doc1 doc2 kw : List Char) (cs : Bool) :
    (searchByContentText (allSections doc1 doc2) kw cs).Pairwise
      (fun a b => b.match_count ≤ a.match_count) ∧
    ∀ n, (searchByContentText (allSections doc1 doc2) kw cs).filter
        (fun r => r.match_count == n) =
      (searchByContentTextPre (allSections doc1 doc2) kw cs).filter
        (fun r => r.match_count == n) := by
  constructor
  · unfold searchByContentText
    have hp := sortByCond_pairwise
      (fun a b : ContentResult => decide (b.match_count ≤ a.match_count))
      (fun a b => by
        rcases Nat.le_total b.match_count a.match_count with h | h
        · exact Or.inl (decide_eq_true h)
        · exact Or.inr (decide_eq_true h))
      (fun a b c hab hbc => decide_eq_true
        (Nat.le_trans (of_decide_eq_true hbc) (of_decide_eq_true hab)))
      (searchByContentTextPre (allSections doc1 doc2) kw cs)
    exact hp.imp (fun h => of_decide_eq_true h)
  · intro n
    unfold searchByContentText
    apply filter_sortByCond
    intro a _ b _ hcond hPab
    rcases hPab with ⟨ha, hb⟩
    have ha' : a.match_count = n := by simpa using ha
    have hb' : b.match_count = n := by simpa using hb
    have hlt : ¬ b.match_count ≤ a.match_count := of_decide_eq_false hcond
    omega

/-- C6: the title-search output is sorted ascending by level with ties
in the encounter order of the pre-sort results (stable sort, no
secondary key), and the empty keyword with case_sensitive = false
returns one result per section of the merged index. -/
theorem title_results_sorted_asc (doc1 doc2 kw : List Char) (cs : Bool) :
    (searchBySectionName (allSections doc1 doc2) kw cs).Pairwise
      (fun a b => a.level ≤ b.level) ∧
    (∀ n, (searchBySectionName (allSections doc1 doc2) kw cs).filter
        (fun r => r.level == n) =
      (searchBySectionNamePre (allSections doc1 doc2) kw cs).filter
        (fun r => r.level == n)) ∧
    (kw = [] → cs = false →
      (searchBySectionName (allSections doc1 doc2) kw cs).length =
        (allSections doc1 doc2).length ∧
      ((searchBySectionName (allSections doc1 doc2) kw cs).map
        (fun r => r.section_name)).Perm ((allSections doc1 doc2).map Prod.fst)) := by
  refine ⟨?_, ?_, ?_⟩
  · unfold searchBySectionName
    have hp := sortByCond_pairwise
      (fun a b : TitleResult => decide (a.level ≤ b.level))
      (fun a b => by
        rcases Nat.le_total a.level b.level with h | h
        · exact Or.inl (decide_eq_true h)
        · exact Or.inr (decide_eq_true h))
      (fun a b c hab hbc => decide_eq_true
        (Nat.le_trans (of_decide_eq_true hab) (of_decide_eq_true hbc)))
      (searchBySectionNamePre (allSections doc1 doc2) kw cs)
    exact hp.imp (fun h => of_decide_eq_true h)
  · intro n
    unfold searchBySectionName
    apply filter_sortByCond
    intro a _ b _ hcond hPab
    rcases hPab with ⟨ha, hb⟩
    have ha' : a.level = n := by simpa using ha
    have hb' : b.level = n := by simpa using hb
    have hlt : ¬ a.level ≤ b.level := of_decide_eq_false hcond
    omega
  · intro hkw hcs
    subst hkw
    subst hcs
    refine ⟨searchBySectionName_empty_kw_length _ _, ?_⟩
    have h1 := (sortByCond_perm
      (fun a b : TitleResult => decide (a.level ≤ b.level))
      (searchBySectionNamePre (allSections doc1 doc2) [] false)).map
        (fun r => r.section_name)
    have h2 : (searchBySectionNamePre (allSections doc1 doc2) [] false).map
        (fun r => r.section_name) = (allSections doc1 doc2).map Prod.fst := by
      rw [searchBySectionNamePre_empty_kw, List.map_map]
      apply List.map_congr_left
      intro p _
      rfl
    rw [h2] at h1
    exact h1

/-- C6 witness: on the concrete two-section index, the empty keyword
with case_sensitive = false returns exactly one result per section. -/
theorem title_results_sorted_asc_witness :
    (searchBySectionName (allSections docC3 (str "")) [] false).length =
      (allSections docC3 (str "")).length ∧
    ((searchBySectionName (allSections docC3 (str "")) [] false).map
      (fun r => r.section_name)).Perm ((allSections docC3 (str "")).map Prod.fst) :=
  (title_results_sorted_asc docC3 (str "") [] false).2.2 rfl rfl

/-- C7: every title-search result's preview is the first 200 characters
of the section's content, with the literal suffix "..." appended
exactly when the content is longer than 200 characters; a 250-character
content yields a 203-character preview. -/
theorem title_result_preview (doc1 doc2 kw : List Char) (cs : Bool) (r : TitleResult)
    (h : r ∈ searchBySectionName (allSections doc1 doc2) kw cs) :
    ∃ p, p ∈ allSections doc1 doc2 ∧ r.section_name = p.1 ∧
      r.preview = p.2.content.take 200 ++
        (if 200 < p.2.content.length then str "..." else []) ∧
      r.preview.length =
        (if 200 < p.2.content.length then 203 else p.2.content.length) ∧
      (p.2.content.length = 250 → r.preview.length = 203) := by
  rcases mem_searchBySectionName _ _ _ _ h with ⟨p, hp, he⟩
  subst he
  have hpre : (mkTitleResult p.1 p.2).preview = p.2.content.take 200 ++
      (if 200 < p.2.content.length then str "..." else []) := by
    unfold mkTitleResult
    by_cases hl : 200 < p.2.content.length
    · simp [hl]
    · simp [hl, List.take_of_length_le (by omega : p.2.content.length ≤ 200)]
  have hlen : (mkTitleResult p.1 p.2).preview.length =
      (if 200 < p.2.content.length then 203 else p.2.content.length) := by
    rw [hpre]
    by_cases hl : 200 < p.2.content.length
    · rw [if_pos hl, if_pos hl]
      rw [List.length_append, List.length_take]
      rw [show (str "...").length = 3 from rfl]
      omega
    · rw [if_neg hl, if_neg hl]
      rw [List.length_append, List.length_take]
      simp
      omega
  exact ⟨p, hp, rfl, hpre, hlen, fun h250 => by rw [hlen, if_pos (by omega)]⟩

set_option maxRecDepth 4000 in
/-- C7 witness: the preview equations instantiated at the section with
250-character content, whose preview has exactly 203 characters. -/
theorem title_result_preview_witness :
    ∃ p, p ∈ allSections doc250 (str "") ∧
      titleResult250.section_name = p.1 ∧
      titleResult250.preview = p.2.content.take 200 ++
        (if 200 < p.2.content.length then str "..." else []) ∧
      titleResult250.preview.length =
        (if 200 < p.2.content.length then 203 else p.2.content.length) ∧
      (p.2.content.length = 250 → titleResult250.preview.length = 203) :=
  title_result_preview doc250 (str "") [] false titleResult250 (by decide)

/-- C8: every content-search result's matching_context is the
document-order concatenation of the per-matching-line context windows
[i-1, i+1] (indices clamped to the content's line range, overlapping
windows not deduplicated), truncated to the first 10 lines and joined
with newlines. -/
theorem content_matching_context (doc1 doc2 kw : List Char) (cs : Bool)
    (r : ContentResult)
    (h : r ∈ searchByContentText (allSections doc1 doc2) kw cs) :
    ∃ p, p ∈ allSections doc1 doc2 ∧ r.section_name = p.1 ∧
      r.matching_context =
        joinNl ((ctxSpec (if cs then kw else lower kw) cs
          (splitNl p.2.content)).take 10) := by
  rcases mem_searchByContentText _ _ _ _ h with ⟨p, hp, he⟩
  subst he
  refine ⟨p, hp, rfl, ?_⟩
  show joinNl ((collectContext (if cs then kw else lower kw) cs
    (splitNl p.2.content)).take 10) = _
  rw [collectContext_eq_ctxSpec]

/-- C8 witness: the context equation instantiated at the "hello" search
result of the concrete scenario's section "Doc: A". -/
theorem content_matching_context_witness :
    ∃ p, p ∈ allSections docC3 (str "") ∧
      contentResultHello.section_name = p.1 ∧
      contentResultHello.matching_context =
        joinNl ((ctxSpec (if false then str "hello" else lower (str "hello")) false
          (splitNl p.2.content)).take 10) :=
  content_matching_context docC3 (str "") (str "hello") false
    contentResultHello (by decide)

end DocSearch
